import Mathlib

/-!
# Verification of the `rolling_hash` repository

Shallow embedding of the Rust sources (`src/prime.rs`, `src/lib.rs`,
`src/windows.rs`, `src/oneway.rs`, `src/math.rs`) and proofs of the frozen
claims about them.

Machine integers (`u64`) are modelled as `Nat` with an explicit `% 2 ^ 64`
(`w64`) applied at every arithmetic step that can wrap in Rust release mode.
Bit operations on `u64` are modelled arithmetically:
`x & ((1 << b) - 1) = x % 2 ^ b` and `x >> b = x / 2 ^ b`.
-/

namespace RollingHash

/-- Wrap-around of 64-bit unsigned arithmetic: every `u64` operation result
is reduced modulo `2 ^ 64`. -/
def w64 (x : Nat) : Nat := x % 2 ^ 64

/-- Fuel-driven floor base-2 logarithm, the model of `u64::ilog2`
(`ilog2 n = ⌊log₂ n⌋` for `n ≥ 1`).  The fuel argument only forces
termination; `fuel ≥ n` is always enough. -/
def log2_fuel : Nat → Nat → Nat
  | 0, _ => 0
  | fuel + 1, n => if n < 2 then 0 else log2_fuel fuel (n / 2) + 1

/-- Model of `u64::ilog2`. -/
def ilog2 (n : Nat) : Nat := log2_fuel n n

/-- Model of `u64::next_power_of_two`: the smallest power of two `≥ n`
(and `1` for `n ≤ 1`). -/
def next_power_of_two (n : Nat) : Nat :=
  if n ≤ 1 then 1 else 2 ^ (ilog2 (n - 1) + 1)

/-- Model of `Prime::<P>::mul_mod` (`src/prime.rs` lines 63–150, identical to
`RollingHasher::mul_mod` in `src/lib.rs` lines 160–230 and `mul_mod` in
`src/math.rs`): overflow-avoiding `(lhs * rhs) % P` for primes `P = 2^EXP - DIFF`.

The Rust code computes
`exp = P.next_power_of_two().ilog2()`, `diff = (1 << exp) - P`,
`bits_l = (exp + 1) / 2`, `mask_l = (1 << bits_l) - 1`,
splits both operands at bit `bits_l`, and forms
`uu = lhs_u * rhs_u * (exp % 2 + 1) * diff`,
`cross = cross_u * (exp % 2 + 1) * diff + (cross_l << bits_l)` with
`cross_u`/`cross_l` the halves of `lhs_u * rhs_l + lhs_l * rhs_u`,
`ll = lhs_l * rhs_l`, returning `(uu % P + cross + ll) % P`.
Every `u64` multiplication, addition and left shift below is wrapped in `w64`. -/
def mul_mod (P lhs rhs : Nat) : Nat :=
  let exp := ilog2 (next_power_of_two P)
  let diff := 2 ^ exp - P
  let bits_l := (exp + 1) / 2
  let mask := 2 ^ bits_l
  let lhs_l := lhs % mask
  let lhs_u := lhs / mask
  let rhs_l := rhs % mask
  let rhs_u := rhs / mask
  let uu := w64 (w64 (w64 (lhs_u * rhs_u) * (exp % 2 + 1)) * diff)
  let cross0 := w64 (w64 (lhs_u * rhs_l) + w64 (lhs_l * rhs_u))
  let cross_l := cross0 % mask
  let cross_u := cross0 / mask
  let cross := w64 (w64 (w64 (cross_u * (exp % 2 + 1)) * diff) + w64 (cross_l * mask))
  let ll := w64 (lhs_l * rhs_l)
  w64 (w64 (uu % P + cross) + ll) % P

/-- Loop body of `Prime::<P>::pow_mod` (`src/prime.rs` lines 161–171):
`while exp > 0 { if exp & 1 == 1 { result = mul_mod(result, value) };
exp >>= 1; value = mul_mod(value, value) }`.
The fuel argument only forces termination; since `exp` at least halves each
iteration, `fuel = exp` is always enough. -/
def pow_mod_go (P : Nat) : Nat → Nat → Nat → Nat → Nat
  | 0, _, _, result => result
  | fuel + 1, value, exp, result =>
    if exp = 0 then result
    else
      pow_mod_go P fuel (mul_mod P value value) (exp / 2)
        (if exp % 2 = 1 then mul_mod P result value else result)

/-- Model of `Prime::<P>::pow_mod`: binary exponentiation, `result` starts at `1`. -/
def pow_mod (P value exp : Nat) : Nat := pow_mod_go P exp value exp 1

/-- The allow-list of supported primes (`PRIMES` in `src/prime.rs` /
`src/lib.rs`). -/
def PRIMES : List Nat :=
  [2 ^ 57 - 111, 2 ^ 57 - 69, 2 ^ 57 - 61, 2 ^ 57 - 49, 2 ^ 57 - 25,
   2 ^ 57 - 13, 2 ^ 58 - 63, 2 ^ 58 - 57, 2 ^ 58 - 27, 2 ^ 61 - 1]

/-- The 128-bit wide-arithmetic reference for modular multiplication:
`(a as u128 * b as u128 % P as u128) as u64`.  For `a, b < P < 2 ^ 64` the
final cast is exact, so only the product is wrapped at 128 bits. -/
def wide_ref (P a b : Nat) : Nat := a * b % 2 ^ 128 % P

/-! ## Characterization of `ilog2` and `next_power_of_two` -/

theorem log2_fuel_eq (e : Nat) : ∀ n fuel, 2 ^ e ≤ n → n < 2 ^ (e + 1) →
    n ≤ fuel → log2_fuel fuel n = e := by
  induction e with
  | zero =>
    intro n fuel h1 h2 hf
    interval_cases n
    cases fuel with
    | zero => omega
    | succ f => simp [log2_fuel]
  | succ e ih =>
    intro n fuel h1 h2 hf
    have h2e : (2 : Nat) ≤ 2 ^ (e + 1) := by
      calc (2 : Nat) = 2 ^ 1 := rfl
      _ ≤ 2 ^ (e + 1) := Nat.pow_le_pow_right (by omega) (by omega)
    have hn2 : 2 ≤ n := le_trans h2e h1
    cases fuel with
    | zero => omega
    | succ f =>
      have hdiv1 : 2 ^ e ≤ n / 2 := by
        have : 2 ^ (e + 1) = 2 ^ e * 2 := by ring
        omega
      have hdiv2 : n / 2 < 2 ^ (e + 1) := by
        have : 2 ^ (e + 2) = 2 ^ (e + 1) * 2 := by ring
        omega
      have hdivf : n / 2 ≤ f := by omega
      simp only [log2_fuel, if_neg (by omega : ¬ n < 2)]
      rw [ih (n / 2) f hdiv1 hdiv2 hdivf]

theorem ilog2_eq (e n : Nat) (h1 : 2 ^ e ≤ n) (h2 : n < 2 ^ (e + 1)) :
    ilog2 n = e :=
  log2_fuel_eq e n n h1 h2 le_rfl

theorem next_power_of_two_eq (e d : Nat) (he : 1 ≤ e) (hd1 : 1 ≤ d)
    (hd2 : d + 2 ^ (e - 1) < 2 ^ e) :
    next_power_of_two (2 ^ e - d) = 2 ^ e := by
  have hpow : 2 ^ (e - 1) * 2 = 2 ^ e := by
    calc 2 ^ (e - 1) * 2 = 2 ^ (e - 1 + 1) := by ring
    _ = 2 ^ e := by congr 1; omega
  have h2 : 2 ^ e - d - 1 < 2 ^ e := by omega
  have h1 : 2 ^ (e - 1) ≤ 2 ^ e - d - 1 := by omega
  have hle : ¬ (2 ^ e - d ≤ 1) := by omega
  rw [next_power_of_two, if_neg hle,
    ilog2_eq (e - 1) (2 ^ e - d - 1) h1 (by rw [Nat.sub_add_cancel he]; exact h2)]
  congr 1
  omega

/-! ## Correctness of `mul_mod` -/

theorem two_pow_le_two_pow {x y : Nat} (h : x ≤ y) : (2 : Nat) ^ x ≤ 2 ^ y :=
  Nat.pow_le_pow_right (by omega) h

theorem two_pow_mul_two_pow (x y : Nat) : (2 : Nat) ^ x * 2 ^ y = 2 ^ (x + y) :=
  (pow_add 2 x y).symm

theorem w64_id {x : Nat} (h : x < 2 ^ 64) : w64 x = x := Nat.mod_eq_of_lt h

/-- `mul_mod` computes `(a * b) % P` for `P = 2^e - d` whenever `e` and `d`
satisfy the bounds stated in the source's comments
(`EXP ≤ 61`, `2^EXP * DIFF < 2^64`) and both operands are reduced.
The statement is about the wrapped 64-bit model, so it also certifies that no
intermediate 64-bit overflow affects the result. -/
theorem mul_mod_spec (e d a b : Nat) (he1 : 33 ≤ e) (he2 : e ≤ 61)
    (hd1 : 1 ≤ d) (hd2 : 2 ^ e * d < 2 ^ 64)
    (ha : a < 2 ^ e - d) (hb : b < 2 ^ e - d) :
    mul_mod (2 ^ e - d) a b = a * b % (2 ^ e - d) := by
  have hd3 : d < 2 ^ (64 - e) := by
    have h64 : (2 : Nat) ^ 64 = 2 ^ e * 2 ^ (64 - e) := by
      rw [two_pow_mul_two_pow]; congr 1; omega
    have h2e : (0 : Nat) < 2 ^ e := Nat.pos_pow_of_pos e (by omega)
    rw [h64] at hd2
    exact Nat.lt_of_mul_lt_mul_left hd2
  have hd31 : (2 : Nat) ^ (64 - e) ≤ 2 ^ 31 := two_pow_le_two_pow (by omega)
  have hd2e1 : (2 : Nat) ^ 31 ≤ 2 ^ (e - 1) := two_pow_le_two_pow (by omega)
  have he1' : (2 : Nat) ^ (e - 1) * 2 = 2 ^ e := by
    rw [← pow_succ]; congr 1; omega
  have hdsmall : d + 2 ^ (e - 1) < 2 ^ e := by omega
  set P := 2 ^ e - d with hPdef
  have hPpos : 0 < P := by omega
  have hP2 : 2 ≤ P := by omega
  have hPle : P ≤ 2 ^ e := by omega
  -- the constants the source derives from `P`
  have hexp : ilog2 (next_power_of_two P) = e := by
    rw [hPdef, next_power_of_two_eq e d (by omega) hd1 hdsmall]
    exact ilog2_eq e (2 ^ e) le_rfl (by
      have : (2 : Nat) ^ (e + 1) = 2 ^ e * 2 := by ring
      omega)
  have hdiff : 2 ^ e - P = d := by omega
  simp only [mul_mod, hexp, hdiff]
  set L := (e + 1) / 2 with hLdef
  set Q := 2 ^ L with hQdef
  have hQpos : 0 < Q := Nat.pos_pow_of_pos L (by omega)
  set c := e % 2 + 1 with hcdef
  have hc : c = 2 ^ (e % 2) := by
    rcases Nat.mod_two_eq_zero_or_one e with h | h <;> rw [hcdef, h] <;> norm_num
  set au := a / Q with haudef
  set al := a % Q with haldef
  set bu := b / Q with hbudef
  set bl := b % Q with hbldef
  -- operand-half bounds
  have hUQ : (2 : Nat) ^ (e / 2) * Q = 2 ^ e := by
    rw [hQdef, two_pow_mul_two_pow]; congr 1; omega
  have hau : au < 2 ^ (e / 2) := by
    rw [haudef]
    exact (Nat.div_lt_iff_lt_mul hQpos).mpr (by rw [hUQ]; omega)
  have hbu : bu < 2 ^ (e / 2) := by
    rw [hbudef]
    exact (Nat.div_lt_iff_lt_mul hQpos).mpr (by rw [hUQ]; omega)
  have hal : al < Q := Nat.mod_lt a hQpos
  have hbl : bl < Q := Nat.mod_lt b hQpos
  -- `uu` fits in 64 bits
  have haubu : au * bu * c < 2 ^ e := by
    calc au * bu * c < 2 ^ (e / 2) * 2 ^ (e / 2) * c :=
          (Nat.mul_lt_mul_right (by omega)).mpr (Nat.mul_lt_mul'' hau hbu)
    _ = 2 ^ e := by
          rw [hc, two_pow_mul_two_pow, two_pow_mul_two_pow]; congr 1; omega
  have huu : au * bu * c * d < 2 ^ 64 := by
    calc au * bu * c * d < 2 ^ e * d := (Nat.mul_lt_mul_right (by omega)).mpr haubu
    _ < 2 ^ 64 := hd2
  have huu1 : au * bu < 2 ^ 64 := by
    have h1 : au * bu ≤ au * bu * c := Nat.le_mul_of_pos_right _ (by omega)
    have h2 : (2 : Nat) ^ e ≤ 2 ^ 64 := two_pow_le_two_pow (by omega)
    omega
  have huu2 : au * bu * c < 2 ^ 64 := by
    have h2 : (2 : Nat) ^ e ≤ 2 ^ 64 := two_pow_le_two_pow (by omega)
    omega
  -- the cross term fits in 64 bits
  have haubl : au * bl < 2 ^ e := by
    calc au * bl < 2 ^ (e / 2) * Q := Nat.mul_lt_mul'' hau hbl
    _ = 2 ^ e := hUQ
  have halbu : al * bu < 2 ^ e := by
    calc al * bu < Q * 2 ^ (e / 2) := Nat.mul_lt_mul'' hal hbu
    _ = 2 ^ e := by rw [mul_comm]; exact hUQ
  have h2e64 : (2 : Nat) ^ e ≤ 2 ^ 61 := two_pow_le_two_pow (by omega)
  have hcross0 : au * bl + al * bu < 2 ^ (e + 1) := by
    have : (2 : Nat) ^ (e + 1) = 2 ^ e * 2 := by ring
    omega
  set cr := au * bl + al * bu with hcrdef
  set cl := cr % Q with hcldef
  set cu := cr / Q with hcudef
  have hcu : cu < 2 ^ (e / 2 + 1) := by
    rw [hcudef]
    refine (Nat.div_lt_iff_lt_mul hQpos).mpr ?_
    have : (2 : Nat) ^ (e / 2 + 1) * Q = 2 ^ (e + 1) := by
      rw [hQdef, two_pow_mul_two_pow]; congr 1; omega
    omega
  have hcl : cl < Q := Nat.mod_lt cr hQpos
  have hcuc : cu * c < 2 ^ (e / 2 + 2) := by
    calc cu * c < 2 ^ (e / 2 + 1) * c := (Nat.mul_lt_mul_right (by omega)).mpr hcu
    _ ≤ 2 ^ (e / 2 + 1) * 2 ^ 1 := by
          rw [hc]; exact Nat.mul_le_mul_left _ (two_pow_le_two_pow (by omega))
    _ = 2 ^ (e / 2 + 2) := by rw [two_pow_mul_two_pow]
  have hcucd : cu * c * d < 2 ^ 49 := by
    calc cu * c * d < 2 ^ (e / 2 + 2) * d :=
          (Nat.mul_lt_mul_right (by omega)).mpr hcuc
    _ ≤ 2 ^ (e / 2 + 2) * 2 ^ (64 - e) := by
          exact Nat.mul_le_mul_left _ (by omega)
    _ = 2 ^ (e / 2 + 2 + (64 - e)) := two_pow_mul_two_pow _ _
    _ ≤ 2 ^ 49 := two_pow_le_two_pow (by omega)
  have hQQ62 : Q * Q ≤ 2 ^ 62 := by
    rw [hQdef, two_pow_mul_two_pow]; exact two_pow_le_two_pow (by omega)
  have hclQ : cl * Q < 2 ^ 62 := by
    have := Nat.mul_lt_mul_of_lt_of_le hcl (le_refl Q) hQpos
    omega
  have halbl : al * bl < 2 ^ 62 := by
    have := Nat.mul_lt_mul'' hal hbl
    omega
  have hcuc64 : cu * c < 2 ^ 64 := by
    have : (2 : Nat) ^ (e / 2 + 2) ≤ 2 ^ 64 := two_pow_le_two_pow (by omega)
    omega
  -- collapse every 64-bit wrap
  rw [w64_id huu1, w64_id huu2, w64_id huu,
    w64_id (lt_of_lt_of_le haubl (by omega)),
    w64_id (lt_of_lt_of_le halbu (by omega)),
    w64_id (show au * bl + al * bu < 2 ^ 64 by
      have : (2 : Nat) ^ (e + 1) ≤ 2 ^ 62 := two_pow_le_two_pow (by omega)
      omega),
    w64_id hcuc64, w64_id (by omega : cu * c * d < 2 ^ 64),
    w64_id (by omega : cl * Q < 2 ^ 64),
    w64_id (by omega : cu * c * d + cl * Q < 2 ^ 64),
    w64_id (by omega : al * bl < 2 ^ 64)]
  have huuP : au * bu * c * d % P < P := Nat.mod_lt _ hPpos
  rw [w64_id (by omega : au * bu * c * d % P + (cu * c * d + cl * Q) < 2 ^ 64),
    w64_id (by omega :
      au * bu * c * d % P + (cu * c * d + cl * Q) + al * bl < 2 ^ 64)]
  -- modular algebra: replace `c * d` by `Q * Q` and reassemble `a * b`
  have h2ed : (2 : Nat) ^ e ≡ d [MOD P] := by
    have : (2 : Nat) ^ e = P + d := by omega
    rw [this]
    show (P + d) % P = d % P
    simp [Nat.add_mod_left]
  have hQQcd : Q * Q ≡ c * d [MOD P] := by
    have hLL : L + L = e + e % 2 := by omega
    have hQQ : Q * Q = 2 ^ e * c := by
      rw [hQdef, two_pow_mul_two_pow, hLL, hc, two_pow_mul_two_pow]
    rw [hQQ, mul_comm c d]
    exact Nat.ModEq.mul_right c h2ed
  have hsplit_a : Q * au + al = a := Nat.div_add_mod a Q
  have hsplit_b : Q * bu + bl = b := Nat.div_add_mod b Q
  have hsplit_cr : Q * cu + cl = cr := Nat.div_add_mod cr Q
  show (au * bu * c * d % P + (cu * c * d + cl * Q) + al * bl) % P = a * b % P
  have step1 : au * bu * c * d % P + (cu * c * d + cl * Q) + al * bl
      ≡ au * bu * (c * d) + (cu * (c * d) + cl * Q) + al * bl [MOD P] := by
    have h1 : au * bu * c * d ≡ au * bu * (c * d) [MOD P] := by
      rw [mul_assoc]
    exact Nat.ModEq.add
      (Nat.ModEq.add ((Nat.mod_modEq _ _).trans h1)
        (Nat.ModEq.add_right _ (by rw [mul_assoc])))
      (Nat.ModEq.refl _)
  have step2 : au * bu * (c * d) + (cu * (c * d) + cl * Q) + al * bl
      ≡ au * bu * (Q * Q) + (cu * (Q * Q) + cl * Q) + al * bl [MOD P] := by
    exact Nat.ModEq.add
      (Nat.ModEq.add (Nat.ModEq.mul_left _ hQQcd.symm)
        (Nat.ModEq.add_right _ (Nat.ModEq.mul_left _ hQQcd.symm)))
      (Nat.ModEq.refl _)
  have step3 : au * bu * (Q * Q) + (cu * (Q * Q) + cl * Q) + al * bl = a * b := by
    have h1 : cu * (Q * Q) + cl * Q = (Q * cu + cl) * Q := by ring
    rw [h1, hsplit_cr, ← hsplit_a, ← hsplit_b, hcrdef]
    ring
  calc (au * bu * c * d % P + (cu * c * d + cl * Q) + al * bl) % P
      = (au * bu * (Q * Q) + (cu * (Q * Q) + cl * Q) + al * bl) % P :=
        step1.trans step2
    _ = a * b % P := by rw [step3]

/-- Every allow-listed prime lies in `(2, 2^61]`. -/
theorem PRIMES_bounds : ∀ P ∈ PRIMES, 2 < P ∧ P ≤ 2 ^ 61 := by decide

/-- Shared helper: `mul_mod` is exact modular multiplication for every
allow-listed prime. -/
theorem mul_mod_primes (P : Nat) (hP : P ∈ PRIMES) (a b : Nat)
    (ha : a < P) (hb : b < P) : mul_mod P a b = a * b % P := by
  rw [PRIMES] at hP
  simp only [List.mem_cons, List.not_mem_nil, or_false] at hP
  rcases hP with rfl | rfl | rfl | rfl | rfl | rfl | rfl | rfl | rfl | rfl <;>
    exact mul_mod_spec _ _ a b (by norm_num) (by norm_num) (by norm_num)
      (by norm_num) ha hb

/-- Shared helper: the square-and-multiply loop computes `r * v ^ exp % P`
whenever its fuel is at least `exp` and its accumulators are reduced. -/
theorem pow_mod_go_spec (P : Nat) (hP : 1 < P)
    (hmul : ∀ a b, a < P → b < P → mul_mod P a b = a * b % P) :
    ∀ fuel exp v r, exp ≤ fuel → v < P → r < P →
      pow_mod_go P fuel v exp r = r * v ^ exp % P := by
  intro fuel
  induction fuel with
  | zero =>
    intro exp v r hle hv hr
    have hexp0 : exp = 0 := by omega
    subst hexp0
    simp [pow_mod_go, Nat.mod_eq_of_lt hr]
  | succ fuel ih =>
    intro exp v r hle hv hr
    by_cases hexp0 : exp = 0
    · subst hexp0
      simp [pow_mod_go, Nat.mod_eq_of_lt hr]
    · simp only [pow_mod_go, if_neg hexp0]
      have hvv : mul_mod P v v < P := by
        rw [hmul v v hv hv]; exact Nat.mod_lt _ (by omega)
      have hr' : (if exp % 2 = 1 then mul_mod P r v else r) < P := by
        split
        · rw [hmul r v hr hv]; exact Nat.mod_lt _ (by omega)
        · exact hr
      rw [ih (exp / 2) (mul_mod P v v) _ (by omega) hvv hr']
      rw [hmul v v hv hv]
      have h1 : (v * v % P) ^ (exp / 2) ≡ (v * v) ^ (exp / 2) [MOD P] :=
        (Nat.mod_modEq (v * v) P).pow _
      have h2 : (if exp % 2 = 1 then mul_mod P r v else r)
          ≡ r * v ^ (exp % 2) [MOD P] := by
        rcases Nat.mod_two_eq_zero_or_one exp with h | h <;> rw [h] <;> simp
        · exact Nat.ModEq.refl r
        · rw [hmul r v hr hv]
          exact Nat.mod_modEq (r * v) P
      have hexp2 : exp % 2 + 2 * (exp / 2) = exp := by omega
      have h3 : r * v ^ (exp % 2) * (v * v) ^ (exp / 2) = r * v ^ exp := by
        rw [← pow_two, ← pow_mul, mul_assoc, ← pow_add, hexp2]
      exact h3 ▸ (h2.mul h1)

/-- Shared helper: `pow_mod` is exact modular exponentiation for every
allow-listed prime. -/
theorem pow_mod_primes (P : Nat) (hP : P ∈ PRIMES) (v : Nat) (hv : v < P)
    (exp : Nat) : pow_mod P v exp = v ^ exp % P := by
  obtain ⟨h2, _⟩ := PRIMES_bounds P hP
  rw [pow_mod,
    pow_mod_go_spec P (by omega) (mul_mod_primes P hP) exp exp v 1 le_rfl hv
      (by omega), one_mul]

/-- Shared helper: `pow_mod` outputs are reduced. -/
theorem pow_mod_primes_lt (P : Nat) (hP : P ∈ PRIMES) (v : Nat) (hv : v < P)
    (exp : Nat) : pow_mod P v exp < P := by
  obtain ⟨h2, _⟩ := PRIMES_bounds P hP
  rw [pow_mod_primes P hP v hv exp]
  exact Nat.mod_lt _ (by omega)

/-- **C1**: for every supported prime `P` in the allow-list and all
`a, b ∈ [0, P)`, `mul_mod P a b` returns `(a * b) mod P`, equal to the
128-bit wide-arithmetic reference, and (being stated over the `w64`-wrapped
64-bit model) no intermediate 64-bit overflow affects the result. -/
theorem C1_mul_mod_correct (P : Nat) (hP : P ∈ PRIMES) (a b : Nat)
    (ha : a < P) (hb : b < P) :
    mul_mod P a b = wide_ref P a b ∧ mul_mod P a b = a * b % P := by
  obtain ⟨h2, h61⟩ := PRIMES_bounds P hP
  have hmain := mul_mod_primes P hP a b ha hb
  have hwide : wide_ref P a b = a * b % P := by
    have hsmall : a * b < 2 ^ 128 := by
      calc a * b < 2 ^ 61 * 2 ^ 61 := by
            apply Nat.mul_lt_mul'' <;> omega
      _ < 2 ^ 128 := by norm_num
    simp only [wide_ref, Nat.mod_eq_of_lt hsmall]
  exact ⟨hwide ▸ hmain, hmain⟩

/-- Witness for C1 at the largest prime with near-maximal operands. -/
theorem C1_mul_mod_correct_witness :
    (2 ^ 61 - 1 ∈ PRIMES) ∧
      mul_mod (2 ^ 61 - 1) (2 ^ 61 - 2) (2 ^ 61 - 3) =
        (2 ^ 61 - 2) * (2 ^ 61 - 3) % (2 ^ 61 - 1) :=
  ⟨by decide,
    (C1_mul_mod_correct (2 ^ 61 - 1) (by decide) (2 ^ 61 - 2) (2 ^ 61 - 3)
      (by norm_num) (by norm_num)).2⟩

/-- **C5**: for every supported prime `P`, every base `< P` and every
exponent (unbounded), `pow_mod` computes `base ^ exp % P`; and
`pow_mod P base 0 = 1` for every base. -/
theorem C5_pow_mod_correct :
    (∀ P ∈ PRIMES, ∀ base, base < P → ∀ exp,
        pow_mod P base exp = base ^ exp % P) ∧
      ∀ P base, pow_mod P base 0 = 1 :=
  ⟨fun P hP base hb exp => pow_mod_primes P hP base hb exp,
    fun _ _ => rfl⟩

/-- Witness for C5 at the largest prime. -/
theorem C5_pow_mod_correct_witness :
    pow_mod (2 ^ 61 - 1) 3 5 = 3 ^ 5 % (2 ^ 61 - 1) ∧
      pow_mod (2 ^ 61 - 1) 7 0 = 1 :=
  ⟨C5_pow_mod_correct.1 (2 ^ 61 - 1) (by decide) 3 (by norm_num) 5,
    C5_pow_mod_correct.2 (2 ^ 61 - 1) 7⟩

/-! ## The hash sequence (`RollingHasher`, `src/lib.rs`) -/

/-- Model of `RollingHasher::hash_next` (`src/lib.rs` lines 310–312):
componentwise `(mul_mod(prev[i], base[i]) + next) % P`. -/
def hash_next (P : Nat) (base prev : List Nat) (next : Nat) : List Nat :=
  List.zipWith (fun p bs => (mul_mod P p bs + next) % P) prev base

/-- Model of `RollingHasher::hash_slice` (`src/lib.rs` lines 319–326):
fold from the zero vector, reducing each slice element modulo `P` before the
step.  The zero vector `[0; B]` is `base.map (fun _ => 0)`. -/
def hash_slice (P : Nat) (base slice : List Nat) : List Nat :=
  slice.foldl (fun prev next => hash_next P base prev (next % P))
    (base.map fun _ => 0)

/-- Model of `RollingHasher::push` (`src/lib.rs` lines 349–357) acting on the
`hashed` field: extend the last hash vector by `hash_next`, or store the raw
value in every component on the first push (the `cold_path` branch
`std::array::from_fn(|_| value)`). -/
def push (P : Nat) (base : List Nat) (hashed : List (List Nat))
    (value : Nat) : List (List Nat) :=
  hashed ++
    [match hashed.getLast? with
      | some prev => hash_next P base prev value
      | none => base.map fun _ => value]

/-- Repeated `push`.  `RollingHasher::append` (`src/lib.rs` lines 364–369)
drains its argument and pushes each element in order, so any sequence of
`push`/`append` calls acts on `hashed` as `push_all` of all values in order. -/
def push_all (P : Nat) (base : List Nat) (hashed : List (List Nat))
    (values : List Nat) : List (List Nat) :=
  values.foldl (push P base) hashed

/-- Specification-level scalar polynomial value (no reduction):
`poly_val b [v1, ..., vn] = v1 * b^(n-1) + ... + vn`. -/
def poly_val (b : Nat) (vs : List Nat) : Nat :=
  vs.foldl (fun h v => h * b + v) 0

/-- Specification-level reduced multi-base hash vector of a sequence. -/
def hash_vec (P : Nat) (base vs : List Nat) : List Nat :=
  base.map fun b => poly_val b vs % P

/-! ## The window iterator (`Windows`, `src/windows.rs`) -/

/-- Model of the `Windows` iterator state (`src/windows.rs` lines 5–15):
`hashed` is the borrowed slice of hash vectors, `size` the window length
(a `NonZero<usize>` in the source; positivity is carried as a hypothesis in
the theorems), `base_or_offset` the doubly-used array that starts as the base
vector, and `base_pow_size` the `OnceCell` power cache. -/
structure Windows where
  hashed : List (List Nat)
  size : Nat
  base_or_offset : List Nat
  base_pow_size : Option (List Nat)

/-- Model of `Windows::new` (`src/windows.rs` lines 22–29). -/
def Windows.new (base : List Nat) (hashed : List (List Nat)) (size : Nat) :
    Windows :=
  { hashed := hashed, size := size, base_or_offset := base,
    base_pow_size := none }

/-- Model of `RollingHasher::windows` (`src/lib.rs` lines 378–381):
`NonZero::new(size).expect(..)` panics on `size = 0`; the panic is modelled
as `none`. -/
def mk_windows (base : List Nat) (hashed : List (List Nat)) (size : Nat) :
    Option Windows :=
  if size = 0 then none else some (Windows.new base hashed size)

/-- The `OnceCell::get_or_init` step shared by `next` and `next_back`
(`src/windows.rs` lines 50–57 and 86–96): return the cached `base^size`
vector, or on first use compute it from `base_or_offset` and zero that array
(`self.base_or_offset.fill(0)`).  Result: (power vector, updated
`base_or_offset`). -/
def get_or_init (P : Nat) (w : Windows) : List Nat × List Nat :=
  match w.base_pow_size with
  | some pow => (pow, w.base_or_offset)
  | none =>
    (w.base_or_offset.map fun x => pow_mod P x w.size,
      List.replicate w.base_or_offset.length 0)

/-- Model of `Windows::next` (`src/windows.rs` lines 46–70): if at least
`size` hash vectors remain, yield
`(hashed[size-1][i] + P - mul_mod(base_or_offset[i], base_pow_size[i])) % P`
componentwise, then set `base_or_offset = hashed[0]` and advance the slice
front by one. -/
def windows_next (P : Nat) (w : Windows) : Option (List Nat × Windows) :=
  if w.hashed.length < w.size then none
  else
    let pto := get_or_init P w
    let ret := List.zipWith (fun h op => (h + P - mul_mod P op.1 op.2) % P)
      (w.hashed.getD (w.size - 1) []) (pto.2.zip pto.1)
    some (ret,
      { hashed := w.hashed.tail, size := w.size,
        base_or_offset := w.hashed.headD [], base_pow_size := some pto.1 })

/-- Model of `Windows::next_back` (`src/windows.rs` lines 83–118), matching on
`size.cmp(&hashed.len())`: on `Less` subtract the scaled hash
`hashed[len - size - 1]` from `hashed[len - 1]` and drop the last element; on
`Equal` yield `hashed[size - 1]` directly and truncate to `size - 1`
elements; on `Greater` yield nothing. -/
def windows_next_back (P : Nat) (w : Windows) : Option (List Nat × Windows) :=
  if w.size < w.hashed.length then
    let pto := get_or_init P w
    let ret := List.zipWith (fun h hp => (h + P - mul_mod P hp.1 hp.2) % P)
      (w.hashed.getD (w.hashed.length - 1) [])
      ((w.hashed.getD (w.hashed.length - w.size - 1) []).zip pto.1)
    some (ret,
      { hashed := w.hashed.dropLast, size := w.size,
        base_or_offset := pto.2, base_pow_size := some pto.1 })
  else if w.size = w.hashed.length then
    some (w.hashed.getD (w.size - 1) [],
      { hashed := w.hashed.take (w.size - 1), size := w.size,
        base_or_offset := w.base_or_offset,
        base_pow_size := w.base_pow_size })
  else none

/-- Model of `Windows::size_hint` (`src/windows.rs` lines 72–75), which is
also `ExactSizeIterator::len`: `hashed.len().saturating_sub(size - 1)`. -/
def windows_len (w : Windows) : Nat := w.hashed.length - (w.size - 1)

/-- Collect all forward yields of the iterator (how `Iterator` consumption
works); any fuel of at least the number of remaining yields is enough. -/
def windows_forward (P : Nat) : Nat → Windows → List (List Nat)
  | 0, _ => []
  | fuel + 1, w =>
    match windows_next P w with
    | none => []
    | some (v, w') => v :: windows_forward P fuel w'

/-- Collect all backward yields of the iterator. -/
def windows_backward (P : Nat) : Nat → Windows → List (List Nat)
  | 0, _ => []
  | fuel + 1, w =>
    match windows_next_back P w with
    | none => []
    | some (v, w') => v :: windows_backward P fuel w'

/-! ## Search operations (`src/lib.rs` lines 388–431)

Each operation hashes the needle once with `hash_slice` and scans the window
iterator.  The outer `Option` models the panic on a zero-length needle
(through `RollingHasher::windows`); `Maybe<usize>` carries no data beyond its
payload and is modelled as the payload itself. -/

/-- Model of `RollingHasher::position`: index of the first forward window
hash equal to the target (`Iterator::position`). -/
def position (P : Nat) (base : List Nat) (hashed : List (List Nat))
    (slice : List Nat) : Option (Option Nat) :=
  match mk_windows base hashed slice.length with
  | none => none
  | some w =>
    some (List.findIdx? (fun v => decide (v = hash_slice P base slice))
      (windows_forward P (w.hashed.length + 1) w))

/-- Model of `RollingHasher::rposition`.  `Iterator::rposition` (with
`ExactSizeIterator + DoubleEndedIterator`) starts from `len()` and walks
`next_back`, so the returned index of the first backward match `i` is
`len() - 1 - i`. -/
def rposition (P : Nat) (base : List Nat) (hashed : List (List Nat))
    (slice : List Nat) : Option (Option Nat) :=
  match mk_windows base hashed slice.length with
  | none => none
  | some w =>
    some ((List.findIdx? (fun v => decide (v = hash_slice P base slice))
        (windows_backward P (w.hashed.length + 1) w)).map
      (fun i => windows_len w - 1 - i))

/-- Model of `RollingHasher::positions`: `enumerate().filter_map(..)` keeps
the indices of all forward window hashes equal to the target. -/
def positions (P : Nat) (base : List Nat) (hashed : List (List Nat))
    (slice : List Nat) : Option (List Nat) :=
  match mk_windows base hashed slice.length with
  | none => none
  | some w =>
    some (((windows_forward P (w.hashed.length + 1) w).enum.filter
        (fun p => decide (p.2 = hash_slice P base slice))).map Prod.fst)

/-- Model of `RollingHasher::count`: the number of forward window hashes
equal to the target. -/
def count (P : Nat) (base : List Nat) (hashed : List (List Nat))
    (slice : List Nat) : Option Nat :=
  match mk_windows base hashed slice.length with
  | none => none
  | some w =>
    some ((windows_forward P (w.hashed.length + 1) w).countP
      (fun v => decide (v = hash_slice P base slice)))

/-! ## Polynomial-hash algebra -/

theorem poly_val_singleton (b v : Nat) : poly_val b [v] = v := by
  simp [poly_val]

theorem poly_val_foldl (b : Nat) :
    ∀ (vs : List Nat) (a : Nat),
      vs.foldl (fun h v => h * b + v) a = a * b ^ vs.length + poly_val b vs := by
  intro vs
  induction vs with
  | nil => intro a; simp [poly_val]
  | cons v vs ih =>
    intro a
    have h2 : poly_val b (v :: vs) = v * b ^ vs.length + poly_val b vs := by
      rw [poly_val]
      simp only [List.foldl_cons, Nat.zero_mul, Nat.zero_add]
      exact ih v
    simp only [List.foldl_cons, List.length_cons]
    rw [ih (a * b + v), h2]
    ring

theorem poly_val_append (b : Nat) (xs ys : List Nat) :
    poly_val b (xs ++ ys) = poly_val b xs * b ^ ys.length + poly_val b ys :=
  calc poly_val b (xs ++ ys)
      = ys.foldl (fun h v => h * b + v) (poly_val b xs) := by
        simp only [poly_val, List.foldl_append]
  _ = poly_val b xs * b ^ ys.length + poly_val b ys := poly_val_foldl b ys _

/-- Any implementation-level fold step that agrees with
`h ↦ (h * b + v) % P` on reduced accumulators computes the reduced
polynomial value. -/
theorem foldl_step_poly (P : Nat) (hP : 0 < P) (b : Nat)
    (step : Nat → Nat → Nat) (g : Nat → Nat)
    (hstep : ∀ h v, h < P → step h v = (h * b + g v) % P)
    (hg : ∀ v, g v % P = v % P) :
    ∀ (vs : List Nat) (a : Nat),
      vs.foldl step (a % P) = vs.foldl (fun h v => h * b + v) a % P := by
  intro vs
  induction vs with
  | nil => intro a; rfl
  | cons v vs ih =>
    intro a
    simp only [List.foldl_cons]
    rw [hstep _ v (Nat.mod_lt _ hP)]
    have key : (a % P * b + g v) % P = (a * b + v) % P :=
      Nat.ModEq.add ((Nat.mod_modEq a P).mul_right b) (hg v)
    rw [key]
    exact ih (a * b + v)

/-- `hash_next` on a vector of the shape `base.map f` is again of that
shape. -/
theorem hash_next_map (P : Nat) (base : List Nat) (f : Nat → Nat) (v : Nat) :
    hash_next P base (base.map f) v =
      base.map fun bs => (mul_mod P (f bs) bs + v) % P := by
  rw [hash_next, List.zipWith_map_left, List.zipWith_same]

/-- The `hash_slice` fold, componentwise. -/
theorem hash_slice_go (P : Nat) (base : List Nat) :
    ∀ (slice : List Nat) (f : Nat → Nat),
      slice.foldl (fun prev next => hash_next P base prev (next % P))
          (base.map f) =
        base.map fun b =>
          slice.foldl (fun h v => (mul_mod P h b + v % P) % P) (f b) := by
  intro slice
  induction slice with
  | nil => intro f; rfl
  | cons v slice ih =>
    intro f
    simp only [List.foldl_cons]
    rw [hash_next_map, ih]

/-- Closed form for `hash_slice`: the reduced polynomial hash vector, for any
slice (elements need not be reduced). -/
theorem hash_slice_eq (P : Nat) (hP : 0 < P)
    (hmul : ∀ x y, x < P → y < P → mul_mod P x y = x * y % P)
    (base : List Nat) (hbase : ∀ b ∈ base, b < P) (slice : List Nat) :
    hash_slice P base slice = hash_vec P base slice := by
  rw [hash_slice, hash_slice_go, hash_vec]
  refine List.map_congr_left fun b hb => ?_
  have h0 : (0 : Nat) = 0 % P := (Nat.zero_mod P).symm
  rw [h0, foldl_step_poly P hP b _ (fun v => v % P)
    (fun h v hh => by
      rw [hmul h b hh (hbase b hb)]
      exact Nat.ModEq.add_right _ (Nat.mod_modEq (h * b) P))
    (fun v => Nat.mod_mod_of_dvd v dvd_rfl), ← poly_val]

/-- `push` on a non-empty hash array extends its last entry. -/
theorem push_concat (P : Nat) (base : List Nat) (hashed : List (List Nat))
    (prev : List Nat) (h : hashed.getLast? = some prev) (v : Nat) :
    push P base hashed v = hashed ++ [hash_next P base prev v] := by
  rw [push, h]

/-- The new entry created by a `push` after the first is the hash vector of
the extended prefix. -/
theorem hash_next_hash_vec (P : Nat) (hP : 0 < P)
    (hmul : ∀ x y, x < P → y < P → mul_mod P x y = x * y % P)
    (base : List Nat) (hbase : ∀ b ∈ base, b < P) (vs : List Nat) (v : Nat) :
    hash_next P base (hash_vec P base vs) v = hash_vec P base (vs ++ [v]) := by
  rw [hash_vec, hash_next_map, hash_vec]
  refine List.map_congr_left fun b hb => ?_
  rw [hmul _ b (Nat.mod_lt _ hP) (hbase b hb),
    poly_val_append b vs [v], poly_val_singleton]
  simp only [List.length_cons, List.length_nil, Nat.zero_add, pow_one]
  exact Nat.ModEq.add_right v
    ((Nat.mod_modEq _ P).trans ((Nat.mod_modEq (poly_val b vs) P).mul_right b))

/-- Closed form for the stored hash array: entry `i` is the reduced
polynomial hash vector of the prefix of length `i + 1`. -/
theorem push_all_eq (P : Nat) (hP : 0 < P)
    (hmul : ∀ x y, x < P → y < P → mul_mod P x y = x * y % P)
    (base : List Nat) (hbase : ∀ b ∈ base, b < P) :
    ∀ vs : List Nat, (∀ v ∈ vs, v < P) →
      push_all P base [] vs =
        (List.range vs.length).map fun i => hash_vec P base (vs.take (i + 1)) := by
  intro vs
  induction vs using List.reverseRecOn with
  | nil => intro _; rfl
  | append_singleton vs v ih =>
    intro hvs
    have hvs' : ∀ x ∈ vs, x < P := fun x hx => hvs x (by simp [hx])
    have hv : v < P := hvs v (by simp)
    rw [push_all, List.foldl_append, List.foldl_cons, List.foldl_nil,
      ← push_all, ih hvs']
    have hlen : (vs ++ [v]).length = vs.length + 1 := by simp
    have htakeall : (vs ++ [v]).take (vs.length + 1) = vs ++ [v] := by
      rw [← hlen]; exact List.take_length _
    rcases eq_or_ne vs [] with rfl | hne
    · show push P base [] v = _
      have h1 : push P base [] v = [base.map fun _ => v] := rfl
      have h2 : hash_vec P base (([] ++ [v]).take (0 + 1)) =
          base.map fun _ => v := by
        rw [hash_vec]
        refine List.map_congr_left fun b _ => ?_
        simp [poly_val, Nat.mod_eq_of_lt hv]
      simp only [List.nil_append, List.length_cons, List.length_nil,
        List.range_succ, List.range_zero, List.map_cons, List.map_nil,
        List.nil_append] at h2 ⊢
      rw [h1, h2]
    · obtain ⟨m, hm⟩ : ∃ m, vs.length = m + 1 :=
        ⟨vs.length - 1, by
          have : vs.length ≠ 0 := fun h => hne (List.length_eq_zero.mp h)
          omega⟩
      have hgm : vs.take (m + 1) = vs := by rw [← hm]; exact List.take_length vs
      have hlast? : ((List.range vs.length).map
            (fun i => hash_vec P base (vs.take (i + 1)))).getLast? =
          some (hash_vec P base vs) := by
        rw [hm, List.range_succ, List.map_append]
        simp only [List.map_cons, List.map_nil]
        rw [List.getLast?_concat, hgm]
      rw [push_concat P base _ _ hlast? v,
        hash_next_hash_vec P hP hmul base hbase vs v,
        hlen, List.range_succ, List.map_append]
      congr 1
      · refine List.map_congr_left fun i hi => ?_
        have hilt : i < vs.length := List.mem_range.mp hi
        congr 1
        rw [List.take_append_eq_append_take,
          show i + 1 - vs.length = 0 by omega, List.take_zero,
          List.append_nil]
      · simp only [List.map_cons, List.map_nil]
        rw [htakeall]

/-! ## Window-formula algebra -/

theorem mul_mod_zero_left (P y : Nat) : mul_mod P 0 y = 0 := by
  simp [mul_mod, w64]

/-- `pow_mod` is exact modular exponentiation whenever `mul_mod` is exact
modular multiplication. -/
theorem pow_mod_spec (P : Nat) (hP : 1 < P)
    (hmul : ∀ x y, x < P → y < P → mul_mod P x y = x * y % P)
    (v : Nat) (hv : v < P) (exp : Nat) : pow_mod P v exp = v ^ exp % P := by
  rw [pow_mod, pow_mod_go_spec P hP hmul exp exp v 1 le_rfl hv (by omega),
    one_mul]

theorem modEq_add_right_self (a n : Nat) : a + n ≡ a [MOD n] := by
  show (a + n) % n = a % n
  exact Nat.add_mod_right a n

/-- The scalar subtraction formula: subtracting the scaled hash of the
excluded prefix `xs` from the hash of `xs ++ ys` yields the hash of `ys`. -/
theorem window_sub (P : Nat) (hP : 1 < P)
    (hmul : ∀ x y, x < P → y < P → mul_mod P x y = x * y % P)
    (b : Nat) (hb : b < P) (xs ys : List Nat) (k : Nat) (hk : ys.length = k) :
    (poly_val b (xs ++ ys) % P + P -
        mul_mod P (poly_val b xs % P) (pow_mod P b k)) % P =
      poly_val b ys % P := by
  have hPpos : 0 < P := by omega
  rw [pow_mod_spec P hP hmul b hb k,
    hmul _ _ (Nat.mod_lt _ hPpos) (Nat.mod_lt _ hPpos),
    poly_val_append b xs ys, hk]
  set X := poly_val b xs with hX
  set S := poly_val b ys with hS
  set A := (X * b ^ k + S) % P with hA
  set D := X % P * (b ^ k % P) % P with hD
  have hDP : D < P := Nat.mod_lt _ hPpos
  have key : A + P - D + D = A + P := by omega
  have h1 : A + P ≡ X * b ^ k + S [MOD P] :=
    (modEq_add_right_self A P).trans (Nat.mod_modEq _ P)
  have h2 : D ≡ X * b ^ k [MOD P] :=
    (Nat.mod_modEq _ P).trans ((Nat.mod_modEq X P).mul (Nat.mod_modEq _ P))
  have h3 : A + P - D + D ≡ S + D [MOD P] := by
    rw [key]
    calc A + P ≡ X * b ^ k + S [MOD P] := h1
    _ ≡ D + S [MOD P] := Nat.ModEq.add_right S h2.symm
    _ = S + D := by ring
  show Nat.ModEq P (A + P - D) S
  exact Nat.ModEq.add_right_cancel' D h3

theorem take_add_eq {α : Type} (vs : List α) (j k : Nat) :
    vs.take (j + k) = vs.take j ++ (vs.drop j).take k := by
  have h1 : List.take j (vs.take (j + k)) = vs.take j := by
    rw [List.take_take]
    congr 1
    omega
  have h2 : List.take k (vs.drop j) = List.drop j (vs.take (j + k)) :=
    List.take_drop j k vs
  rw [← h1, h2, List.take_append_drop]

/-- The vector of window hashes of the length-`k` window starting at `j`. -/
def window_vec (P : Nat) (base vs : List Nat) (k j : Nat) : List Nat :=
  hash_vec P base ((vs.drop j).take k)

/-- The memoized `base^size` power vector. -/
def pow_vec (P : Nat) (base : List Nat) (k : Nat) : List Nat :=
  base.map fun b => pow_mod P b k

theorem zipWith_map_zip_map (g1 g2 g3 : Nat → Nat) (f : Nat → Nat × Nat → Nat) :
    ∀ l : List Nat,
      List.zipWith f (l.map g1) ((l.map g2).zip (l.map g3)) =
        l.map fun x => f (g1 x) (g2 x, g3 x) := by
  intro l
  induction l with
  | nil => rfl
  | cons x l ih =>
    simp only [List.map_cons, List.zip_cons_cons, List.zipWith_cons_cons, ih]

/-- The componentwise subtraction step applied to the prefix hashes of
lengths `j + k` and `j` yields the window starting at `j`. -/
theorem ret_vec (P : Nat) (hP : 1 < P)
    (hmul : ∀ x y, x < P → y < P → mul_mod P x y = x * y % P)
    (base : List Nat) (hbase : ∀ b ∈ base, b < P) (vs : List Nat)
    (j k : Nat) (hjk : j + k ≤ vs.length) :
    List.zipWith (fun h op => (h + P - mul_mod P op.1 op.2) % P)
      (hash_vec P base (vs.take (j + k)))
      ((hash_vec P base (vs.take j)).zip (pow_vec P base k)) =
      window_vec P base vs k j := by
  rw [hash_vec, hash_vec, pow_vec, zipWith_map_zip_map, window_vec, hash_vec]
  refine List.map_congr_left fun b hb => ?_
  have hlen : ((vs.drop j).take k).length = k := by
    rw [List.length_take, List.length_drop]; omega
  rw [take_add_eq vs j k]
  exact window_sub P hP hmul b (hbase b hb) (vs.take j) ((vs.drop j).take k)
    k hlen

/-- Variant of `ret_vec` for the very first step, where `base_or_offset` has
just been zeroed: subtracting `mul_mod 0 _ = 0` yields the prefix hash
itself. -/
theorem ret_vec_zero (P : Nat) (base vs : List Nat) (k : Nat) :
    List.zipWith (fun h op => (h + P - mul_mod P op.1 op.2) % P)
      (hash_vec P base (vs.take k))
      ((List.replicate base.length 0).zip (pow_vec P base k)) =
      window_vec P base vs k 0 := by
  have hrep : List.replicate base.length 0 = base.map fun _ => 0 :=
    (List.map_const' base 0).symm
  rw [hrep, hash_vec, pow_vec, zipWith_map_zip_map, window_vec, List.drop_zero,
    hash_vec]
  refine List.map_congr_left fun b _ => ?_
  rw [mul_mod_zero_left, Nat.sub_zero, Nat.add_mod_right,
    Nat.mod_mod_of_dvd _ dvd_rfl]

/-! ## The stored hash array -/

theorem push_length (P : Nat) (base : List Nat) (h : List (List Nat))
    (v : Nat) : (push P base h v).length = h.length + 1 := by
  rw [push, List.length_append, List.length_cons, List.length_nil]

theorem push_all_length (P : Nat) (base : List Nat) :
    ∀ (vs : List Nat) (h : List (List Nat)),
      (push_all P base h vs).length = h.length + vs.length := by
  intro vs
  induction vs with
  | nil => intro h; rfl
  | cons v vs ih =>
    intro h
    rw [push_all, List.foldl_cons, ← push_all, ih, push_length,
      List.length_cons]
    omega

theorem push_all_getD (P : Nat) (hP : 0 < P)
    (hmul : ∀ x y, x < P → y < P → mul_mod P x y = x * y % P)
    (base : List Nat) (hbase : ∀ b ∈ base, b < P) (vs : List Nat)
    (hvs : ∀ v ∈ vs, v < P) (i : Nat) (hi : i < vs.length) :
    (push_all P base [] vs).getD i [] = hash_vec P base (vs.take (i + 1)) := by
  rw [push_all_eq P hP hmul base hbase vs hvs, List.getD_eq_getElem?_getD,
    List.getElem?_map, List.getElem?_range hi]
  rfl

theorem push_all_nil_length (P : Nat) (base vs : List Nat) :
    (push_all P base [] vs).length = vs.length := by
  rw [push_all_length]
  simp

theorem headD_eq_getD {α : Type} (l : List α) (d : α) : l.headD d = l.getD 0 d := by
  cases l <;> rfl

/-! ## Iterator step lemmas -/

/-- The iterator state reached after `j ≥ 1` forward steps over the full
hash array: the front has advanced by `j`, `base_or_offset` holds the prefix
hash of length `j`, and the power cache is filled. -/
def fwd_state (P : Nat) (base vs : List Nat) (k j : Nat) : Windows :=
  { hashed := (push_all P base [] vs).drop j, size := k,
    base_or_offset := (push_all P base [] vs).getD (j - 1) [],
    base_pow_size := some (pow_vec P base k) }

/-- The iterator state reached after `m ≥ 1` backward steps (all through the
`Less` branch) over the full hash array: the back has shrunk by `m`,
`base_or_offset` was zeroed at cell initialization, and the power cache is
filled. -/
def bwd_state (P : Nat) (base vs : List Nat) (k m : Nat) : Windows :=
  { hashed := (push_all P base [] vs).take (vs.length - m), size := k,
    base_or_offset := List.replicate base.length 0,
    base_pow_size := some (pow_vec P base k) }

/-- First forward step from a fresh iterator (when a window fits): yields the
window starting at `0` and initializes the cache. -/
theorem windows_next_new (P : Nat) (hP : 1 < P)
    (hmul : ∀ x y, x < P → y < P → mul_mod P x y = x * y % P)
    (base : List Nat) (hbase : ∀ b ∈ base, b < P) (vs : List Nat)
    (hvs : ∀ v ∈ vs, v < P) (k : Nat) (hk : 1 ≤ k) (hkn : k ≤ vs.length) :
    windows_next P (Windows.new base (push_all P base [] vs) k) =
      some (window_vec P base vs k 0, fwd_state P base vs k 1) := by
  have hlen := push_all_nil_length P base vs
  have hgd : (push_all P base [] vs).getD (k - 1) [] =
      hash_vec P base (vs.take k) := by
    rw [push_all_getD P (by omega) hmul base hbase vs hvs (k - 1) (by omega),
      Nat.sub_add_cancel hk]
  rw [windows_next]
  rw [if_neg (by simp only [Windows.new]; omega)]
  simp only [Windows.new, get_or_init]
  rw [hgd]
  rw [show (base.map fun x => pow_mod P x k) = pow_vec P base k from rfl,
    ret_vec_zero P base vs k]
  rw [fwd_state, List.drop_one, headD_eq_getD]

theorem getD_drop {α : Type} (l : List α) (j i : Nat) (d : α) :
    (l.drop j).getD i d = l.getD (j + i) d := by
  rw [List.getD_eq_getElem?_getD, List.getD_eq_getElem?_getD,
    List.getElem?_drop]

theorem getD_take {α : Type} (l : List α) (t i : Nat) (hi : i < t) (d : α) :
    (l.take t).getD i d = l.getD i d := by
  rw [List.getD_eq_getElem?_getD, List.getD_eq_getElem?_getD,
    List.getElem?_take_of_lt hi]

/-- General forward step after `j ≥ 1` previous forward steps (when a window
still fits): subtract the scaled prefix hash held in `base_or_offset`. -/
theorem windows_next_fwd (P : Nat) (hP : 1 < P)
    (hmul : ∀ x y, x < P → y < P → mul_mod P x y = x * y % P)
    (base : List Nat) (hbase : ∀ b ∈ base, b < P) (vs : List Nat)
    (hvs : ∀ v ∈ vs, v < P) (k j : Nat) (hk : 1 ≤ k) (hj : 1 ≤ j)
    (hjk : j + k ≤ vs.length) :
    windows_next P (fwd_state P base vs k j) =
      some (window_vec P base vs k j, fwd_state P base vs k (j + 1)) := by
  have hlen := push_all_nil_length P base vs
  rw [windows_next]
  rw [if_neg (by
    simp only [fwd_state, List.length_drop, hlen]
    omega)]
  simp only [fwd_state, get_or_init]
  have hgd1 : ((push_all P base [] vs).drop j).getD (k - 1) [] =
      hash_vec P base (vs.take (j + k)) := by
    rw [getD_drop,
      push_all_getD P (by omega) hmul base hbase vs hvs _ (by omega),
      show j + (k - 1) + 1 = j + k by omega]
  have hgd2 : (push_all P base [] vs).getD (j - 1) [] =
      hash_vec P base (vs.take j) := by
    rw [push_all_getD P (by omega) hmul base hbase vs hvs _ (by omega),
      show j - 1 + 1 = j by omega]
  rw [hgd1, hgd2, ret_vec P hP hmul base hbase vs j k hjk,
    List.tail_drop, headD_eq_getD, getD_drop]
  simp only [fwd_state, Nat.add_zero, Nat.add_sub_cancel]

/-- Forward steps stop once fewer than `size` elements remain. -/
theorem windows_next_fwd_none (P : Nat) (base vs : List Nat) (k j : Nat)
    (hk : 1 ≤ k) (hj : vs.length < j + k) :
    windows_next P (fwd_state P base vs k j) = none := by
  rw [windows_next]
  rw [if_pos (by
    simp only [fwd_state, List.length_drop, push_all_nil_length]
    omega)]

/-- A fresh iterator with a window longer than the sequence yields nothing. -/
theorem windows_next_new_none (P : Nat) (base vs : List Nat) (k : Nat)
    (h : vs.length < k) :
    windows_next P (Windows.new base (push_all P base [] vs) k) = none := by
  rw [windows_next]
  rw [if_pos (by
    simp only [Windows.new, push_all_nil_length]
    omega)]

/-- Backward steps stop once fewer than `size` elements remain
(the `Greater` arm). -/
theorem windows_next_back_none (P : Nat) (w : Windows)
    (h : w.hashed.length < w.size) : windows_next_back P w = none := by
  rw [windows_next_back, if_neg (by omega), if_neg (by omega)]

/-- First backward step from a fresh iterator through the `Less` branch
(`size < len`): yields the last window and initializes the cache, zeroing
`base_or_offset`. -/
theorem windows_next_back_new (P : Nat) (hP : 1 < P)
    (hmul : ∀ x y, x < P → y < P → mul_mod P x y = x * y % P)
    (base : List Nat) (hbase : ∀ b ∈ base, b < P) (vs : List Nat)
    (hvs : ∀ v ∈ vs, v < P) (k : Nat) (hk : 1 ≤ k) (hkn : k < vs.length) :
    windows_next_back P (Windows.new base (push_all P base [] vs) k) =
      some (window_vec P base vs k (vs.length - k), bwd_state P base vs k 1) := by
  have hlen := push_all_nil_length P base vs
  rw [windows_next_back]
  rw [if_pos (by simp only [Windows.new, hlen]; omega)]
  simp only [Windows.new, get_or_init]
  have hgdl : (push_all P base [] vs).getD
        ((push_all P base [] vs).length - 1) [] =
      hash_vec P base (vs.take (vs.length - k + k)) := by
    rw [hlen, push_all_getD P (by omega) hmul base hbase vs hvs _ (by omega),
      show vs.length - 1 + 1 = vs.length - k + k by omega]
  have hgdp : (push_all P base [] vs).getD
        ((push_all P base [] vs).length - k - 1) [] =
      hash_vec P base (vs.take (vs.length - k)) := by
    rw [hlen, push_all_getD P (by omega) hmul base hbase vs hvs _ (by omega),
      show vs.length - k - 1 + 1 = vs.length - k by omega]
  rw [hgdl, hgdp,
    show (base.map fun x => pow_mod P x k) = pow_vec P base k from rfl,
    ret_vec P hP hmul base hbase vs (vs.length - k) k (by omega),
    List.dropLast_eq_take, hlen]
  simp only [bwd_state]

/-- Backward step after `m ≥ 1` backward steps, still through the `Less`
branch. -/
theorem windows_next_back_mid (P : Nat) (hP : 1 < P)
    (hmul : ∀ x y, x < P → y < P → mul_mod P x y = x * y % P)
    (base : List Nat) (hbase : ∀ b ∈ base, b < P) (vs : List Nat)
    (hvs : ∀ v ∈ vs, v < P) (k m : Nat) (hk : 1 ≤ k) (hm : 1 ≤ m)
    (hkm : m + k < vs.length) :
    windows_next_back P (bwd_state P base vs k m) =
      some (window_vec P base vs k (vs.length - m - k),
        bwd_state P base vs k (m + 1)) := by
  have hlen := push_all_nil_length P base vs
  rw [windows_next_back]
  rw [if_pos (by simp only [bwd_state, List.length_take, hlen]; omega)]
  simp only [bwd_state, get_or_init]
  have hlt : (((push_all P base [] vs).take (vs.length - m)).length)
      = vs.length - m := by
    rw [List.length_take, hlen]; omega
  have hgdl : ((push_all P base [] vs).take (vs.length - m)).getD
        ((((push_all P base [] vs).take (vs.length - m)).length) - 1) [] =
      hash_vec P base (vs.take (vs.length - m - k + k)) := by
    rw [hlt, getD_take _ _ _ (by omega),
      push_all_getD P (by omega) hmul base hbase vs hvs _ (by omega),
      show vs.length - m - 1 + 1 = vs.length - m - k + k by omega]
  have hgdp : ((push_all P base [] vs).take (vs.length - m)).getD
        ((((push_all P base [] vs).take (vs.length - m)).length) - k - 1) [] =
      hash_vec P base (vs.take (vs.length - m - k)) := by
    rw [hlt, getD_take _ _ _ (by omega),
      push_all_getD P (by omega) hmul base hbase vs hvs _ (by omega),
      show vs.length - m - k - 1 + 1 = vs.length - m - k by omega]
  rw [hgdl, hgdp, ret_vec P hP hmul base hbase vs (vs.length - m - k) k
      (by omega)]
  have hdl : ((push_all P base [] vs).take (vs.length - m)).dropLast =
      (push_all P base [] vs).take (vs.length - (m + 1)) := by
    rw [List.dropLast_eq_take, List.length_take, hlen, List.take_take]
    congr 1
    omega
  rw [hdl]

/-- Backward step through the `Equal` branch from a fresh iterator
(`size = len`): yields the stored prefix hash directly without touching the
cache. -/
theorem windows_next_back_new_eq (P : Nat) (hP : 1 < P)
    (hmul : ∀ x y, x < P → y < P → mul_mod P x y = x * y % P)
    (base : List Nat) (hbase : ∀ b ∈ base, b < P) (vs : List Nat)
    (hvs : ∀ v ∈ vs, v < P) (hn : 1 ≤ vs.length) :
    windows_next_back P (Windows.new base (push_all P base [] vs) vs.length) =
      some (window_vec P base vs vs.length 0,
        { hashed := (push_all P base [] vs).take (vs.length - 1),
          size := vs.length, base_or_offset := base,
          base_pow_size := none }) := by
  have hlen := push_all_nil_length P base vs
  rw [windows_next_back]
  rw [if_neg (by simp only [Windows.new, hlen]; omega)]
  rw [if_pos (by simp only [Windows.new, hlen])]
  simp only [Windows.new]
  rw [push_all_getD P (by omega) hmul base hbase vs hvs _ (by omega),
    show vs.length - 1 + 1 = vs.length by omega, window_vec, List.drop_zero,
    List.take_of_length_le le_rfl]

/-- Backward step through the `Equal` branch after `m ≥ 1` backward steps. -/
theorem windows_next_back_mid_eq (P : Nat) (hP : 1 < P)
    (hmul : ∀ x y, x < P → y < P → mul_mod P x y = x * y % P)
    (base : List Nat) (hbase : ∀ b ∈ base, b < P) (vs : List Nat)
    (hvs : ∀ v ∈ vs, v < P) (k m : Nat) (hk : 1 ≤ k) (hm : 1 ≤ m)
    (hmk : m + k = vs.length) :
    windows_next_back P (bwd_state P base vs k m) =
      some (window_vec P base vs k 0,
        { hashed := (push_all P base [] vs).take (k - 1), size := k,
          base_or_offset := List.replicate base.length 0,
          base_pow_size := some (pow_vec P base k) }) := by
  have hlen := push_all_nil_length P base vs
  have hlt : (((push_all P base [] vs).take (vs.length - m)).length) = k := by
    rw [List.length_take, hlen]; omega
  rw [windows_next_back]
  rw [if_neg (by simp only [bwd_state, hlt]; omega)]
  rw [if_pos (by simp only [bwd_state, hlt])]
  simp only [bwd_state]
  rw [getD_take _ _ _ (by omega),
    push_all_getD P (by omega) hmul base hbase vs hvs _ (by omega),
    show k - 1 + 1 = k by omega, window_vec, List.drop_zero, List.take_take,
    show min (k - 1) (vs.length - m) = k - 1 by omega]

/-! ## Full traversals -/

theorem windows_forward_cons (P fuel : Nat) (w : Windows) (v : List Nat)
    (w' : Windows) (h : windows_next P w = some (v, w')) :
    windows_forward P (fuel + 1) w = v :: windows_forward P fuel w' := by
  simp only [windows_forward, h]

theorem windows_forward_nil (P fuel : Nat) (w : Windows)
    (h : windows_next P w = none) : windows_forward P (fuel + 1) w = [] := by
  simp only [windows_forward, h]

theorem windows_backward_cons (P fuel : Nat) (w : Windows) (v : List Nat)
    (w' : Windows) (h : windows_next_back P w = some (v, w')) :
    windows_backward P (fuel + 1) w = v :: windows_backward P fuel w' := by
  simp only [windows_backward, h]

theorem windows_backward_nil (P fuel : Nat) (w : Windows)
    (h : windows_next_back P w = none) :
    windows_backward P (fuel + 1) w = [] := by
  simp only [windows_backward, h]

theorem windows_forward_from (P : Nat) (hP : 1 < P)
    (hmul : ∀ x y, x < P → y < P → mul_mod P x y = x * y % P)
    (base : List Nat) (hbase : ∀ b ∈ base, b < P) (vs : List Nat)
    (hvs : ∀ v ∈ vs, v < P) (k : Nat) (hk : 1 ≤ k) :
    ∀ (c j fuel : Nat), 1 ≤ j → c = vs.length + 1 - k - j → c ≤ fuel →
      windows_forward P fuel (fwd_state P base vs k j) =
        (List.range' j c).map (window_vec P base vs k) := by
  intro c
  induction c with
  | zero =>
    intro j fuel hj hc hfuel
    cases fuel with
    | zero => rfl
    | succ f =>
      rw [windows_forward_nil P f _
        (windows_next_fwd_none P base vs k j hk (by omega))]
      rfl
  | succ c ih =>
    intro j fuel hj hc hfuel
    obtain ⟨f, rfl⟩ : ∃ f, fuel = f + 1 := ⟨fuel - 1, by omega⟩
    rw [windows_forward_cons P f _ _ _
        (windows_next_fwd P hP hmul base hbase vs hvs k j hk hj (by omega)),
      List.range'_succ, List.map_cons]
    exact congrArg (List.cons _) (ih (j + 1) f (by omega) (by omega) (by omega))

/-- Driving a fresh iterator fully forward yields the window hash vectors in
ascending start order. -/
theorem windows_forward_spec (P : Nat) (hP : 1 < P)
    (hmul : ∀ x y, x < P → y < P → mul_mod P x y = x * y % P)
    (base : List Nat) (hbase : ∀ b ∈ base, b < P) (vs : List Nat)
    (hvs : ∀ v ∈ vs, v < P) (k : Nat) (hk : 1 ≤ k) (hkn : k ≤ vs.length)
    (fuel : Nat) (hfuel : vs.length + 1 - k ≤ fuel) :
    windows_forward P fuel (Windows.new base (push_all P base [] vs) k) =
      (List.range (vs.length - k + 1)).map (window_vec P base vs k) := by
  obtain ⟨f, rfl⟩ : ∃ f, fuel = f + 1 := ⟨fuel - 1, by omega⟩
  rw [windows_forward_cons P f _ _ _
      (windows_next_new P hP hmul base hbase vs hvs k hk hkn),
    List.range_eq_range', List.range'_succ, List.map_cons]
  exact congrArg (List.cons _)
    (windows_forward_from P hP hmul base hbase vs hvs k hk (vs.length - k) 1 f
      (by omega) (by omega) (by omega))

/-- A window longer than the sequence yields nothing forward. -/
theorem windows_forward_spec_empty (P : Nat) (base vs : List Nat)
    (k fuel : Nat) (h : vs.length < k) :
    windows_forward P fuel (Windows.new base (push_all P base [] vs) k) = [] := by
  cases fuel with
  | zero => rfl
  | succ f =>
    exact windows_forward_nil P f _ (windows_next_new_none P base vs k h)

theorem windows_backward_from (P : Nat) (hP : 1 < P)
    (hmul : ∀ x y, x < P → y < P → mul_mod P x y = x * y % P)
    (base : List Nat) (hbase : ∀ b ∈ base, b < P) (vs : List Nat)
    (hvs : ∀ v ∈ vs, v < P) (k : Nat) (hk : 1 ≤ k) :
    ∀ (c m fuel : Nat), 1 ≤ m → c = vs.length + 1 - k - m → c ≤ fuel →
      windows_backward P fuel (bwd_state P base vs k m) =
        ((List.range c).map (window_vec P base vs k)).reverse := by
  intro c
  induction c with
  | zero =>
    intro m fuel hm hc hfuel
    cases fuel with
    | zero => rfl
    | succ f =>
      rw [windows_backward_nil P f _ (windows_next_back_none P _ (by
        simp only [bwd_state, List.length_take, push_all_nil_length]
        omega))]
      rfl
  | succ c ih =>
    intro m fuel hm hc hfuel
    obtain ⟨f, rfl⟩ : ∃ f, fuel = f + 1 := ⟨fuel - 1, by omega⟩
    by_cases heq : m + k = vs.length
    · have hc0 : c = 0 := by omega
      subst hc0
      have htail : windows_backward P f
          { hashed := (push_all P base [] vs).take (k - 1), size := k,
            base_or_offset := List.replicate base.length 0,
            base_pow_size := some (pow_vec P base k) } = [] := by
        cases f with
        | zero => rfl
        | succ f' =>
          exact windows_backward_nil P f' _ (windows_next_back_none P _ (by
            simp only [List.length_take, push_all_nil_length]
            omega))
      rw [windows_backward_cons P f _ _ _
          (windows_next_back_mid_eq P hP hmul base hbase vs hvs k m hk hm heq),
        htail]
      rfl
    · rw [windows_backward_cons P f _ _ _
          (windows_next_back_mid P hP hmul base hbase vs hvs k m hk hm
            (by omega)),
        List.range_succ, List.map_append, List.reverse_append]
      simp only [List.map_cons, List.map_nil, List.reverse_cons,
        List.reverse_nil, List.nil_append, List.singleton_append]
      rw [show vs.length - m - k = c by omega]
      exact congrArg (List.cons _) (ih (m + 1) f (by omega) (by omega)
        (by omega))

/-- Driving a fresh iterator fully backward yields the window hash vectors in
descending start order. -/
theorem windows_backward_spec (P : Nat) (hP : 1 < P)
    (hmul : ∀ x y, x < P → y < P → mul_mod P x y = x * y % P)
    (base : List Nat) (hbase : ∀ b ∈ base, b < P) (vs : List Nat)
    (hvs : ∀ v ∈ vs, v < P) (k : Nat) (hk : 1 ≤ k) (hkn : k ≤ vs.length)
    (fuel : Nat) (hfuel : vs.length + 1 - k ≤ fuel) :
    windows_backward P fuel (Windows.new base (push_all P base [] vs) k) =
      ((List.range (vs.length - k + 1)).map (window_vec P base vs k)).reverse := by
  obtain ⟨f, rfl⟩ : ∃ f, fuel = f + 1 := ⟨fuel - 1, by omega⟩
  by_cases heq : k = vs.length
  · subst heq
    have htail : windows_backward P f
        { hashed := (push_all P base [] vs).take (vs.length - 1),
          size := vs.length, base_or_offset := base,
          base_pow_size := none } = [] := by
      cases f with
      | zero => rfl
      | succ f' =>
        exact windows_backward_nil P f' _ (windows_next_back_none P _ (by
          simp only [List.length_take, push_all_nil_length]
          omega))
    rw [windows_backward_cons P f _ _ _
        (windows_next_back_new_eq P hP hmul base hbase vs hvs (by omega)),
      htail, Nat.sub_self]
    rfl
  · rw [windows_backward_cons P f _ _ _
        (windows_next_back_new P hP hmul base hbase vs hvs k hk (by omega)),
      windows_backward_from P hP hmul base hbase vs hvs k hk
        (vs.length - k) 1 f (by omega) (by omega) (by omega),
      List.range_succ, List.map_append, List.reverse_append]
    simp only [List.map_cons, List.map_nil, List.reverse_cons,
      List.reverse_nil, List.nil_append, List.singleton_append]

/-- A window longer than the sequence yields nothing backward. -/
theorem windows_backward_spec_empty (P : Nat) (base vs : List Nat)
    (k fuel : Nat) (h : vs.length < k) :
    windows_backward P fuel (Windows.new base (push_all P base [] vs) k) = [] := by
  cases fuel with
  | zero => rfl
  | succ f =>
    exact windows_backward_nil P f _ (windows_next_back_none P _ (by
      simp only [Windows.new, push_all_nil_length]
      omega))

/-! ## Claim theorems: iterator consistency -/

/-- **C2**: for pushed values `v_1..v_n < P` and any window length
`1 ≤ k ≤ n`, the iterator's incremental subtraction path produces, for the
window ending at position `n` (its last forward yield), exactly the hash
obtained by folding `v_{n-k+1}..v_n` directly from the zero vector
(`hash_slice`), componentwise for every configured base. -/
theorem C2_incremental_consistency (P : Nat) (hP : P ∈ PRIMES)
    (base vs : List Nat) (hbase : ∀ b ∈ base, b < P)
    (hvs : ∀ v ∈ vs, v < P) (k : Nat) (hk : 1 ≤ k) (hkn : k ≤ vs.length) :
    (windows_forward P ((push_all P base [] vs).length + 1)
        (Windows.new base (push_all P base [] vs) k)).getLast? =
      some (hash_slice P base (vs.drop (vs.length - k))) := by
  obtain ⟨h2P, h61⟩ := PRIMES_bounds P hP
  have hmul := mul_mod_primes P hP
  have hlenH := push_all_nil_length P base vs
  rw [windows_forward_spec P (by omega) hmul base hbase vs hvs k hk hkn _
      (by omega),
    List.range_succ, List.map_append]
  simp only [List.map_cons, List.map_nil]
  rw [List.getLast?_concat]
  congr 1
  have hdlen : (vs.drop (vs.length - k)).length = k := by
    rw [List.length_drop]; omega
  rw [window_vec, hash_slice_eq P (by omega) hmul base hbase]
  congr 1
  exact List.take_of_length_le (by rw [List.length_drop]; omega)

/-- Witness for C2: `P = 2^61 - 1`, base `[3]`, values `[1, 2, 3]`, `k = 2`. -/
theorem C2_incremental_consistency_witness :
    (windows_forward (2 ^ 61 - 1)
        ((push_all (2 ^ 61 - 1) [3] [] [1, 2, 3]).length + 1)
        (Windows.new [3] (push_all (2 ^ 61 - 1) [3] [] [1, 2, 3]) 2)).getLast? =
      some (hash_slice (2 ^ 61 - 1) [3] (([1, 2, 3] : List Nat).drop 1)) :=
  C2_incremental_consistency (2 ^ 61 - 1) (by decide) [3] [1, 2, 3]
    (by decide) (by decide) 2 (by decide) (by decide)

/-- **C6**: driving a fresh window iterator fully backward yields exactly the
reverse of the sequence produced by driving a fresh iterator fully forward,
for every window length `k ≥ 1` (also when no window fits). -/
theorem C6_forward_backward_agree (P : Nat) (hP : P ∈ PRIMES)
    (base vs : List Nat) (hbase : ∀ b ∈ base, b < P)
    (hvs : ∀ v ∈ vs, v < P) (k : Nat) (hk : 1 ≤ k) :
    windows_backward P ((push_all P base [] vs).length + 1)
        (Windows.new base (push_all P base [] vs) k) =
      (windows_forward P ((push_all P base [] vs).length + 1)
        (Windows.new base (push_all P base [] vs) k)).reverse := by
  obtain ⟨h2P, h61⟩ := PRIMES_bounds P hP
  have hmul := mul_mod_primes P hP
  have hlenH := push_all_nil_length P base vs
  by_cases hkn : k ≤ vs.length
  · rw [windows_forward_spec P (by omega) hmul base hbase vs hvs k hk hkn _
        (by omega),
      windows_backward_spec P (by omega) hmul base hbase vs hvs k hk hkn _
        (by omega)]
  · rw [windows_forward_spec_empty P base vs k _ (by omega),
      windows_backward_spec_empty P base vs k _ (by omega)]
    rfl

/-- Witness for C6: `P = 2^61 - 1`, base `[3]`, values `[1, 2, 3]`, `k = 2`. -/
theorem C6_forward_backward_agree_witness :
    windows_backward (2 ^ 61 - 1)
        ((push_all (2 ^ 61 - 1) [3] [] [1, 2, 3]).length + 1)
        (Windows.new [3] (push_all (2 ^ 61 - 1) [3] [] [1, 2, 3]) 2) =
      (windows_forward (2 ^ 61 - 1)
        ((push_all (2 ^ 61 - 1) [3] [] [1, 2, 3]).length + 1)
        (Windows.new [3] (push_all (2 ^ 61 - 1) [3] [] [1, 2, 3]) 2)).reverse :=
  C6_forward_backward_agree (2 ^ 61 - 1) (by decide) [3] [1, 2, 3]
    (by decide) (by decide) 2 (by decide)

/-! ## Search soundness -/

theorem Windows_new_hashed (base : List Nat) (h : List (List Nat)) (k : Nat) :
    (Windows.new base h k).hashed = h := rfl


/-- Shared helper: when the needle `T` literally occurs in `vs` at index `i`,
every search operation reports a result, `positions` reports `i` among its
results, `count` is at least `1`, and `position` returns an index `≤ i`. -/
theorem search_sound (P : Nat) (hP : P ∈ PRIMES) (base vs T : List Nat)
    (hbase : ∀ b ∈ base, b < P) (hvs : ∀ v ∈ vs, v < P) (i : Nat)
    (hT0 : T ≠ []) (hocc : T = (vs.drop i).take T.length)
    (hiT : i + T.length ≤ vs.length) :
    (∃ j, position P base (push_all P base [] vs) T = some (some j) ∧ j ≤ i) ∧
      (∃ L, positions P base (push_all P base [] vs) T = some L ∧ i ∈ L) ∧
      (∃ c, count P base (push_all P base [] vs) T = some c ∧ 1 ≤ c) ∧
      ∃ j, rposition P base (push_all P base [] vs) T = some (some j) := by
  obtain ⟨h2P, h61⟩ := PRIMES_bounds P hP
  have hmul := mul_mod_primes P hP
  have hl : 1 ≤ T.length := List.length_pos.mpr hT0
  have hT0' : ¬ T.length = 0 := by omega
  have hlenH := push_all_nil_length P base vs
  have hfwd := windows_forward_spec P (by omega) hmul base hbase vs hvs
    T.length hl (by omega) ((push_all P base [] vs).length + 1) (by omega)
  have hbwd := windows_backward_spec P (by omega) hmul base hbase vs hvs
    T.length hl (by omega) ((push_all P base [] vs).length + 1) (by omega)
  have htarget : hash_slice P base T = window_vec P base vs T.length i := by
    rw [hash_slice_eq P (by omega) hmul base hbase T, window_vec, ← hocc]
  set M := vs.length - T.length + 1 with hM
  have hiM : i < M := by omega
  set win := window_vec P base vs T.length with hwin
  have hgeti : ((List.range M).map win)[i]? = some (win i) := by
    rw [List.getElem?_map, List.getElem?_range hiM]
    rfl
  have hmem : win i ∈ (List.range M).map win :=
    List.mem_map_of_mem _ (List.mem_range.mpr hiM)
  have hlen2 : i < ((List.range M).map win).length := by
    rw [List.length_map, List.length_range]
    omega
  have hx : ((List.range M).map win)[i] = win i := by
    have h6 := hgeti
    rwa [List.getElem?_eq_getElem hlen2, Option.some.injEq] at h6
  have hne : ((List.range M).map win).findIdx?
      (fun v => decide (v = win i)) ≠ none := by
    intro hnone
    rw [List.findIdx?_eq_none_iff] at hnone
    have h7 := hnone _ hmem
    simp at h7
  obtain ⟨j, hj⟩ := Option.ne_none_iff_exists'.mp hne
  refine ⟨?_, ?_, ?_, ?_⟩
  · -- position
    simp only [position, mk_windows, if_neg hT0', Windows_new_hashed]
    rw [hfwd, htarget]
    obtain ⟨hjM, hpj, hmin⟩ := List.findIdx?_eq_some_iff_getElem.mp hj
    have hji : j ≤ i := by
      by_contra hcon
      have h5 := hmin i (by omega)
      rw [hx] at h5
      simp at h5
    exact ⟨j, by rw [hj], hji⟩
  · -- positions
    simp only [positions, mk_windows, if_neg hT0', Windows_new_hashed]
    rw [hfwd, htarget]
    refine ⟨_, rfl, ?_⟩
    refine List.mem_map.mpr ⟨(i, win i), ?_, rfl⟩
    refine List.mem_filter.mpr ⟨?_, by simp⟩
    rw [List.mem_enum_iff_getElem?]
    exact hgeti
  · -- count
    simp only [count, mk_windows, if_neg hT0', Windows_new_hashed]
    rw [hfwd, htarget]
    refine ⟨_, rfl, ?_⟩
    have h8 : 0 < ((List.range M).map win).countP
        (fun v => decide (v = win i)) :=
      List.countP_pos_iff.mpr ⟨win i, hmem, by simp⟩
    omega
  · -- rposition
    simp only [rposition, mk_windows, if_neg hT0', Windows_new_hashed]
    rw [hbwd, htarget]
    have hmemr : win i ∈ ((List.range M).map win).reverse :=
      List.mem_reverse.mpr hmem
    have hner : (((List.range M).map win).reverse).findIdx?
        (fun v => decide (v = win i)) ≠ none := by
      intro hnone
      rw [List.findIdx?_eq_none_iff] at hnone
      have h7 := hnone _ hmemr
      simp at h7
    obtain ⟨j', hj'⟩ := Option.ne_none_iff_exists'.mp hner
    exact ⟨_, by rw [hj']; rfl⟩

/-- **C3**: search has no false negatives.  If `T` (nonempty, all values of
the sequence below `P`) occurs literally at index `i`, then `positions`
yields `i` among its results, `count` counts it (is at least `1`), and
`position`/`rposition` return some matching index rather than `none`. -/
theorem C3_no_false_negatives (P : Nat) (hP : P ∈ PRIMES)
    (base vs T : List Nat) (hbase : ∀ b ∈ base, b < P)
    (hvs : ∀ v ∈ vs, v < P) (i : Nat) (hT0 : T ≠ [])
    (hocc : T = (vs.drop i).take T.length) (hiT : i + T.length ≤ vs.length) :
    (∃ L, positions P base (push_all P base [] vs) T = some L ∧ i ∈ L) ∧
      (∃ c, count P base (push_all P base [] vs) T = some c ∧ 1 ≤ c) ∧
      (∃ j, position P base (push_all P base [] vs) T = some (some j)) ∧
      ∃ j, rposition P base (push_all P base [] vs) T = some (some j) := by
  obtain ⟨⟨j, hj, _⟩, hL, hc, hr⟩ :=
    search_sound P hP base vs T hbase hvs i hT0 hocc hiT
  exact ⟨hL, hc, ⟨j, hj⟩, hr⟩

/-- Witness for C3: `P = 2^61 - 1`, base `[3]`, sequence `[1, 2, 3]`, needle
`[2, 3]` occurring at index `1`. -/
theorem C3_no_false_negatives_witness :
    (∃ L, positions (2 ^ 61 - 1) [3] (push_all (2 ^ 61 - 1) [3] [] [1, 2, 3])
        [2, 3] = some L ∧ 1 ∈ L) ∧
      (∃ c, count (2 ^ 61 - 1) [3] (push_all (2 ^ 61 - 1) [3] [] [1, 2, 3])
        [2, 3] = some c ∧ 1 ≤ c) ∧
      (∃ j, position (2 ^ 61 - 1) [3] (push_all (2 ^ 61 - 1) [3] [] [1, 2, 3])
        [2, 3] = some (some j)) ∧
      ∃ j, rposition (2 ^ 61 - 1) [3] (push_all (2 ^ 61 - 1) [3] [] [1, 2, 3])
        [2, 3] = some (some j) :=
  C3_no_false_negatives (2 ^ 61 - 1) (by decide) [3] [1, 2, 3] [2, 3]
    (by decide) (by decide) 1 (by decide) (by decide) (by decide)

/-! ## Boundary behavior, invariants, needle reduction -/

/-- **C8**: a needle longer than the haystack gives `position = none` (inner)
and `count = 0`; a window length of `0` — equivalently an empty needle — is
rejected with a panic (modelled as the outer `none`) rather than producing a
result. -/
theorem C8_boundary (P : Nat) (base : List Nat) (vs T : List Nat)
    (hT0 : T ≠ []) (hlong : vs.length < T.length) :
    position P base (push_all P base [] vs) T = some none ∧
      count P base (push_all P base [] vs) T = some 0 ∧
      (∀ (base' : List Nat) (hashed : List (List Nat)),
        mk_windows base' hashed 0 = none) ∧
      ∀ (base' : List Nat) (hashed : List (List Nat)),
        position P base' hashed [] = none := by
  have hT0' : ¬ T.length = 0 := by
    have := List.length_pos.mpr hT0
    omega
  refine ⟨?_, ?_, fun b' h' => rfl, fun b' h' => rfl⟩
  · simp only [position, mk_windows, if_neg hT0', Windows_new_hashed]
    rw [windows_forward_spec_empty P base vs T.length _ hlong]
    rfl
  · simp only [count, mk_windows, if_neg hT0', Windows_new_hashed]
    rw [windows_forward_spec_empty P base vs T.length _ hlong]
    rfl

/-- Witness for C8 at a concrete input. -/
theorem C8_boundary_witness :
    position (2 ^ 61 - 1) [3] (push_all (2 ^ 61 - 1) [3] [] [1, 2])
        [1, 2, 3] = some none ∧
      count (2 ^ 61 - 1) [3] (push_all (2 ^ 61 - 1) [3] [] [1, 2])
        [1, 2, 3] = some 0 ∧
      (∀ (base' : List Nat) (hashed : List (List Nat)),
        mk_windows base' hashed 0 = none) ∧
      ∀ (base' : List Nat) (hashed : List (List Nat)),
        position (2 ^ 61 - 1) base' hashed [] = none :=
  C8_boundary (2 ^ 61 - 1) [3] [1, 2] [1, 2, 3] (by decide) (by decide)

theorem mem_zipWith {α β γ : Type} (f : α → β → γ) :
    ∀ (l1 : List α) (l2 : List β) (x : γ), x ∈ List.zipWith f l1 l2 →
      ∃ a b, x = f a b := by
  intro l1
  induction l1 with
  | nil =>
    intro l2 x hx
    simp at hx
  | cons a l1 ih =>
    intro l2 x hx
    cases l2 with
    | nil => simp at hx
    | cons b l2 =>
      rw [List.zipWith_cons_cons] at hx
      rcases List.mem_cons.mp hx with h | h
      · exact ⟨a, b, h⟩
      · exact ih l2 x h

theorem push_all_entries_lt (P : Nat) (hP : 0 < P) (base : List Nat) :
    ∀ (vs : List Nat) (h : List (List Nat)), (∀ v ∈ vs, v < P) →
      (∀ entry ∈ h, ∀ x ∈ entry, x < P) →
      ∀ entry ∈ push_all P base h vs, ∀ x ∈ entry, x < P := by
  intro vs
  induction vs with
  | nil =>
    intro h _ hh
    exact hh
  | cons v vs ih =>
    intro h hvs hh
    rw [push_all, List.foldl_cons, ← push_all]
    refine ih (push P base h v) (fun x hx => hvs x (by simp [hx])) ?_
    intro entry hentry x hx
    rw [push] at hentry
    rcases List.mem_append.mp hentry with h1 | h1
    · exact hh entry h1 x hx
    · rw [List.mem_singleton] at h1
      subst h1
      cases hl : h.getLast? with
      | none =>
        rw [hl] at hx
        obtain ⟨_, _, rfl⟩ := List.mem_map.mp hx
        exact hvs v (by simp)
      | some prev =>
        rw [hl] at hx
        obtain ⟨a, b, rfl⟩ := mem_zipWith _ _ _ _ hx
        exact Nat.mod_lt _ hP

theorem push_all_grows (P : Nat) (base : List Nat) :
    ∀ (vs : List Nat) (h : List (List Nat)),
      ∃ t, push_all P base h vs = h ++ t := by
  intro vs
  induction vs with
  | nil =>
    intro h
    exact ⟨[], (List.append_nil h).symm⟩
  | cons v vs ih =>
    intro h
    obtain ⟨t, ht⟩ := ih (push P base h v)
    refine ⟨(match h.getLast? with
      | some prev => hash_next P base prev v
      | none => base.map fun _ => v) :: t, ?_⟩
    rw [push_all, List.foldl_cons, ← push_all, ht, push, List.append_assoc]
    rfl

/-- **C9**: assuming every pushed value is below `P`, after any sequence of
`push`/`append` operations every stored hash component lies in `[0, P)`, the
stored list's length equals the number of values appended, and earlier
entries are never modified (the array only grows by appending). -/
theorem C9_invariants (P : Nat) (hP : P ∈ PRIMES) (base : List Nat) :
    (∀ vs : List Nat, (∀ v ∈ vs, v < P) →
        ∀ entry ∈ push_all P base [] vs, ∀ x ∈ entry, x < P) ∧
      (∀ (h : List (List Nat)) (vs : List Nat),
        (push_all P base h vs).length = h.length + vs.length) ∧
      ∀ (h : List (List Nat)) (vs : List Nat),
        ∃ t, push_all P base h vs = h ++ t := by
  obtain ⟨h2P, _⟩ := PRIMES_bounds P hP
  exact ⟨fun vs hvs =>
      push_all_entries_lt P (by omega) base vs [] hvs (by simp),
    fun h vs => push_all_length P base vs h,
    fun h vs => push_all_grows P base vs h⟩

/-- Witness for C9 at the largest prime. -/
theorem C9_invariants_witness :
    (∀ vs : List Nat, (∀ v ∈ vs, v < 2 ^ 61 - 1) →
        ∀ entry ∈ push_all (2 ^ 61 - 1) [3] [] vs, ∀ x ∈ entry,
          x < 2 ^ 61 - 1) ∧
      (∀ (h : List (List Nat)) (vs : List Nat),
        (push_all (2 ^ 61 - 1) [3] h vs).length = h.length + vs.length) ∧
      ∀ (h : List (List Nat)) (vs : List Nat),
        ∃ t, push_all (2 ^ 61 - 1) [3] h vs = h ++ t :=
  C9_invariants (2 ^ 61 - 1) (by decide) [3]

theorem hash_slice_map_mod (P : Nat) (base slice : List Nat) :
    hash_slice P base (slice.map fun t => t % P) = hash_slice P base slice := by
  rw [hash_slice, hash_slice, List.foldl_map]
  congr 1
  funext prev next
  rw [Nat.mod_mod_of_dvd next dvd_rfl]

/-- **C10** (implicit): the needle-hashing path reduces each needle element
modulo `P` before folding, so every search operation returns the same result
on a needle and on its elementwise reduction modulo `P`. -/
theorem C10_needle_reduction (P : Nat) (base : List Nat)
    (hashed : List (List Nat)) (slice : List Nat) :
    position P base hashed (slice.map fun t => t % P) =
        position P base hashed slice ∧
      rposition P base hashed (slice.map fun t => t % P) =
        rposition P base hashed slice ∧
      positions P base hashed (slice.map fun t => t % P) =
        positions P base hashed slice ∧
      count P base hashed (slice.map fun t => t % P) =
        count P base hashed slice := by
  have hhs := hash_slice_map_mod P base slice
  have hlen : (slice.map fun t => t % P).length = slice.length :=
    List.length_map _ _
  refine ⟨?_, ?_, ?_, ?_⟩ <;>
    simp only [position, rposition, positions, count, hlen, hhs]

/-! ## C4: the interleaving defect of `next_back`'s `Equal` branch -/

/-- **C4 evidence**: with `P = 2^61 - 1`, base vector `[2]`, pushed values
`[1, 0]` and window length `1`, calling `next` (which yields the correct
`[1]` for the window `[1]`) and then `next_back` makes `next_back` take the
`Equal` branch and return the raw prefix hash `[2]` (`1 * 2 + 0`), although
the remaining window `[0]` hashes to `[0]`: the `Equal` branch ignores the
prefix already consumed by forward steps. -/
theorem C4_interleave_bug :
    (windows_next (2 ^ 61 - 1) (Windows.new [2]
        (push_all (2 ^ 61 - 1) [2] [] [1, 0]) 1)).map Prod.fst =
      some [1] ∧
      ((windows_next (2 ^ 61 - 1) (Windows.new [2]
          (push_all (2 ^ 61 - 1) [2] [] [1, 0]) 1)).bind fun vw =>
        (windows_next_back (2 ^ 61 - 1) vw.2).map Prod.fst) = some [2] ∧
      hash_slice (2 ^ 61 - 1) [2] ((([1, 0] : List Nat).drop 1).take 1) =
        [0] := by
  decide

/-! ## C7: the concrete search scenario -/

/-- **C7 counterexample**: with base `2` (a value the constructor may
generate, `2 ∈ [2, P-2]`), the needle `[1, 5]` collides with the window
`(3, 1)` (`3 * 2 + 1 = 1 * 2 + 5 = 7`), so `position` returns `0` instead of
`3`, `positions` yields two indices and `count` returns `2`. -/
theorem C7_base2_counterexample :
    2 ≤ 2 ∧ (2 : Nat) ≤ 2 ^ 61 - 1 - 2 ∧
      position (2 ^ 61 - 1) [2]
          (push_all (2 ^ 61 - 1) [2] [] [3, 1, 4, 1, 5, 9, 2, 6]) [1, 5] =
        some (some 0) ∧
      positions (2 ^ 61 - 1) [2]
          (push_all (2 ^ 61 - 1) [2] [] [3, 1, 4, 1, 5, 9, 2, 6]) [1, 5] =
        some [0, 3] ∧
      count (2 ^ 61 - 1) [2]
          (push_all (2 ^ 61 - 1) [2] [] [3, 1, 4, 1, 5, 9, 2, 6]) [1, 5] =
        some 2 := by
  refine ⟨le_rfl, by norm_num, ?_⟩
  decide

/-- **C7 amended**: for every base the constructor may generate
(`b ∈ [2, P-2]`), searching `[1, 5]` in `[3, 1, 4, 1, 5, 9, 2, 6]` returns
some position `≤ 3`, `positions` yields `3` among its results and `count` is
at least `1`; the exact outcome demanded by the original claim
(`position = 3`, exactly one reported position, `count = 1`) holds for
collision-free bases such as base `3`, but not for every base. -/
theorem C7_amended_scenario :
    (∀ b : Nat, 2 ≤ b → b ≤ 2 ^ 61 - 1 - 2 →
      (∃ j, position (2 ^ 61 - 1) [b]
          (push_all (2 ^ 61 - 1) [b] [] [3, 1, 4, 1, 5, 9, 2, 6]) [1, 5] =
        some (some j) ∧ j ≤ 3) ∧
      (∃ L, positions (2 ^ 61 - 1) [b]
          (push_all (2 ^ 61 - 1) [b] [] [3, 1, 4, 1, 5, 9, 2, 6]) [1, 5] =
        some L ∧ 3 ∈ L) ∧
      ∃ c, count (2 ^ 61 - 1) [b]
          (push_all (2 ^ 61 - 1) [b] [] [3, 1, 4, 1, 5, 9, 2, 6]) [1, 5] =
        some c ∧ 1 ≤ c) ∧
      position (2 ^ 61 - 1) [3]
          (push_all (2 ^ 61 - 1) [3] [] [3, 1, 4, 1, 5, 9, 2, 6]) [1, 5] =
        some (some 3) ∧
      positions (2 ^ 61 - 1) [3]
          (push_all (2 ^ 61 - 1) [3] [] [3, 1, 4, 1, 5, 9, 2, 6]) [1, 5] =
        some [3] ∧
      count (2 ^ 61 - 1) [3]
          (push_all (2 ^ 61 - 1) [3] [] [3, 1, 4, 1, 5, 9, 2, 6]) [1, 5] =
        some 1 := by
  constructor
  · intro b hb1 hb2
    have h := search_sound (2 ^ 61 - 1) (by decide) [b]
      [3, 1, 4, 1, 5, 9, 2, 6] [1, 5]
      (fun x hx => by
        rw [List.mem_singleton] at hx
        subst hx
        omega)
      (by decide) 3 (by decide) (by decide) (by decide)
    exact ⟨h.1, h.2.1, h.2.2.1⟩
  · decide

/-- Witness for the amended C7 at the concrete base `5`. -/
theorem C7_amended_scenario_witness :
    (∃ j, position (2 ^ 61 - 1) [5]
        (push_all (2 ^ 61 - 1) [5] [] [3, 1, 4, 1, 5, 9, 2, 6]) [1, 5] =
      some (some j) ∧ j ≤ 3) ∧
      (∃ L, positions (2 ^ 61 - 1) [5]
          (push_all (2 ^ 61 - 1) [5] [] [3, 1, 4, 1, 5, 9, 2, 6]) [1, 5] =
        some L ∧ 3 ∈ L) ∧
      ∃ c, count (2 ^ 61 - 1) [5]
          (push_all (2 ^ 61 - 1) [5] [] [3, 1, 4, 1, 5, 9, 2, 6]) [1, 5] =
        some c ∧ 1 ≤ c :=
  C7_amended_scenario.1 5 (by norm_num) (by norm_num)

end RollingHash
